import Mathlib

/-!
# Verification of the RMK `input_device` module

Shallow embedding of `src/rmk/src/input_device/mod.rs`:

* the `run_devices!` / `run_processors!` macros expand to a right-nested
  application of `embassy_futures::join::join` over the `run()` bodies of the
  listed instances; we model the expansion as a function producing a `JoinTree`;
* the polling behaviour of the composed future is modelled by `treePoll` /
  `treeDone`, with leaf futures abstracted as progress counters that may
  complete after a fixed number of polls or run forever;
* the default `InputProcessor::run` loop (`loop { read_event; process }`) is
  modelled as a small-step control machine `ctrlStep`;
* `send_event` hand-off is modelled as appending to an ordered sink;
* the trait signatures are embedded as data for the error-taxonomy claim.
-/

namespace RMK

/-- Syntactic shape of the future built by the composition macros: a leaf is
one `run()` body, `join a b` is `embassy_futures::join::join(a, b)`. -/
inductive JoinTree (L : Type) : Type where
  | leaf (t : L) : JoinTree L
  | join (a b : JoinTree L) : JoinTree L
deriving DecidableEq, Repr

/-- Expansion of the `run_devices!` macro.  `run` maps an instance to its
`run()` body.  `run_devices run d ds` is `run_devices!(d, ds…)`:
a single device expands to `d.run()` itself, several devices expand to
`join(d.run(), run_devices!(rest…))`. -/
def run_devices {ι L : Type} (run : ι → L) : ι → List ι → JoinTree L
  | d, [] => .leaf (run d)
  | d, d2 :: rest => .join (.leaf (run d)) (run_devices run d2 rest)

/-- Expansion of the `run_processors!` macro, which is textually the same
recursion as `run_devices!`. -/
def run_processors {ι L : Type} (run : ι → L) : ι → List ι → JoinTree L
  | p, [] => .leaf (run p)
  | p, p2 :: rest => .join (.leaf (run p)) (run_processors run p2 rest)

/-- A tree is right-nested when every left child of a `join` is a leaf. -/
def rightNested {L : Type} : JoinTree L → Bool
  | .leaf _ => true
  | .join (.leaf _) b => rightNested b
  | .join (.join _ _) _ => false

/-- The leaves of a composition, in left-to-right order. -/
def treeLeaves {L : Type} : JoinTree L → List L
  | .leaf t => [t]
  | .join a b => treeLeaves a ++ treeLeaves b

lemma rightNested_run_devices {ι L : Type} (run : ι → L) (d : ι) (ds : List ι) :
    rightNested (run_devices run d ds) = true := by
  induction ds generalizing d with
  | nil => rfl
  | cons d2 rest ih => simpa [run_devices, rightNested] using ih d2

lemma treeLeaves_run_devices {ι L : Type} (run : ι → L) (d : ι) (ds : List ι) :
    treeLeaves (run_devices run d ds) = (d :: ds).map run := by
  induction ds generalizing d with
  | nil => rfl
  | cons d2 rest ih => simp [run_devices, treeLeaves, ih d2]

lemma run_processors_eq_run_devices {ι L : Type} (run : ι → L) (d : ι) (ds : List ι) :
    run_processors run d ds = run_devices run d ds := by
  induction ds generalizing d with
  | nil => rfl
  | cons d2 rest ih => simp [run_processors, run_devices, ih d2]

/-- Abstract behaviour of one leaf `run()` future: an internal progress
counter `polls` that advances each time the future is polled, and an optional
`limit` after which the future is complete (`none` models the typical
non-terminating device/processor loop). -/
structure LeafTask : Type where
  limit : Option Nat
  polls : Nat
deriving DecidableEq, Repr

/-- Whether a leaf future has completed: it has been polled `limit` times. -/
def leafDone (s : LeafTask) : Bool :=
  match s.limit with
  | some k => decide (k ≤ s.polls)
  | none => false

/-- One poll of a leaf future: if it is not yet complete its progress counter
advances by one; a completed future is left unchanged. -/
def leafPoll (s : LeafTask) : LeafTask :=
  if leafDone s then s else { s with polls := s.polls + 1 }

/-- Completion of a composed future: `join(a, b)` is ready only once both
operands are ready (semantics of `embassy_futures::join::Join`). -/
def treeDone : JoinTree LeafTask → Bool
  | .leaf s => leafDone s
  | .join a b => treeDone a && treeDone b

/-- One poll of a composed future: a leaf is polled directly; `join(a, b)`
polls each operand that has not yet completed (a completed operand's output
is stored and it is never polled again). -/
def treePoll : JoinTree LeafTask → JoinTree LeafTask
  | .leaf s => .leaf (leafPoll s)
  | .join a b =>
      .join (if treeDone a then a else treePoll a)
            (if treeDone b then b else treePoll b)

lemma leafPoll_of_done {s : LeafTask} (h : leafDone s = true) : leafPoll s = s := by
  simp [leafPoll, h]

lemma treePoll_of_done : ∀ {t : JoinTree LeafTask}, treeDone t = true → treePoll t = t
  | .leaf s, h => by
      simp only [treeDone] at h
      simp [treePoll, leafPoll_of_done h]
  | .join a b, h => by
      simp only [treeDone, Bool.and_eq_true] at h
      simp [treePoll, h.1, h.2, treePoll_of_done h.1, treePoll_of_done h.2]

lemma treePoll_join (a b : JoinTree LeafTask) :
    treePoll (.join a b) = .join (treePoll a) (treePoll b) := by
  simp only [treePoll]
  congr 1 <;> (split <;> simp [treePoll_of_done, *])

lemma treePoll_leaf (s : LeafTask) : treePoll (.leaf s) = .leaf (leafPoll s) := rfl

lemma treeLeaves_treePoll : ∀ t : JoinTree LeafTask,
    treeLeaves (treePoll t) = (treeLeaves t).map leafPoll
  | .leaf s => rfl
  | .join a b => by
      rw [treePoll_join]
      simp [treeLeaves, treeLeaves_treePoll a, treeLeaves_treePoll b]

lemma treePoll_iter_leaf (s : LeafTask) (n : Nat) :
    treePoll^[n] (.leaf s) = .leaf (leafPoll^[n] s) := by
  induction n generalizing s with
  | zero => rfl
  | succ n ih => rw [Function.iterate_succ_apply, Function.iterate_succ_apply,
      treePoll_leaf, ih]

lemma treePoll_iter_join (a b : JoinTree LeafTask) (n : Nat) :
    treePoll^[n] (.join a b) = .join (treePoll^[n] a) (treePoll^[n] b) := by
  induction n generalizing a b with
  | zero => rfl
  | succ n ih => rw [Function.iterate_succ_apply, treePoll_join, ih,
      Function.iterate_succ_apply, Function.iterate_succ_apply]

lemma leafPoll_iter_none (p n : Nat) :
    leafPoll^[n] ⟨none, p⟩ = ⟨none, p + n⟩ := by
  induction n generalizing p with
  | zero => rfl
  | succ n ih =>
      rw [Function.iterate_succ_apply]
      have : leafPoll ⟨none, p⟩ = ⟨none, p + 1⟩ := by simp [leafPoll, leafDone]
      rw [this, ih]
      congr 1
      omega

lemma leafPoll_iter_some (k n : Nat) :
    leafPoll^[n] ⟨some k, 0⟩ = ⟨some k, min n k⟩ := by
  induction n with
  | zero => simp
  | succ n ih =>
      rw [Function.iterate_succ_apply', ih]
      by_cases h : k ≤ n
      · have hd : leafDone ⟨some k, min n k⟩ = true := by
          simp [leafDone]; omega
        rw [leafPoll_of_done hd]
        congr 1
        omega
      · have hd : leafDone ⟨some k, min n k⟩ = false := by
          simp [leafDone]; omega
        simp only [leafPoll, hd, Bool.false_eq_true, if_false]
        congr 1
        omega

/-- Control point of the default `InputProcessor::run` loop body
`loop { let event = self.read_event().await; self.process(event).await; }`:
suspended at `read_event`, about to `process` a received event, or returned
(the async block's final state, which the loop never reaches). -/
inductive Ctrl (E : Type) : Type where
  | read : Ctrl E
  | processing (e : E) : Ctrl E
  | returned : Ctrl E
deriving DecidableEq

/-- State of one execution of the default `run` future: the control point,
how many events have been read so far, and the trace of events passed to
`process`, in call order. -/
structure ProcRun (E : Type) : Type where
  ctrl : Ctrl E
  readCount : Nat
  processed : List E

/-- Whether the `run` future has returned. -/
def ctrlReturned {E : Type} : Ctrl E → Bool
  | .returned => true
  | _ => false

/-- One small step of the default `run` loop.  `source i` is what the `i`-th
`read_event().await` resolves to (`none`: it never resolves, so the future
stays suspended there).  At `read` the loop awaits the next event; with the
event in hand it calls `process` (recorded in `processed`) and loops back to
`read`.  The loop body has no `break` or `return`, so no step produces
`returned`. -/
def ctrlStep {E : Type} (source : Nat → Option E) (s : ProcRun E) : ProcRun E :=
  match s.ctrl with
  | .read =>
      match source s.readCount with
      | some e => { s with ctrl := .processing e, readCount := s.readCount + 1 }
      | none => s
  | .processing e => { s with ctrl := .read, processed := s.processed ++ [e] }
  | .returned => s

/-- The initial state of the default `run` future: suspended at the first
`read_event`, nothing processed. -/
def procInit (E : Type) : ProcRun E := ⟨.read, 0, []⟩

lemma ctrlStep_closed {E : Type} (f : Nat → E) (n : Nat) :
    (ctrlStep (fun i => some (f i)))^[2 * n] (procInit E) =
      ⟨.read, n, (List.range n).map f⟩ := by
  induction n with
  | zero => rfl
  | succ n ih =>
      have h2 : 2 * (n + 1) = 2 * n + 1 + 1 := by omega
      rw [h2, Function.iterate_succ_apply', Function.iterate_succ_apply', ih]
      simp [ctrlStep, List.range_succ]

lemma ctrlStep_not_returned {E : Type} (source : Nat → Option E) (s : ProcRun E)
    (h : ctrlReturned s.ctrl = false) :
    ctrlReturned (ctrlStep source s).ctrl = false := by
  rcases s with ⟨c, r, p⟩
  cases c with
  | read =>
      simp only [ctrlStep]
      cases source r <;> simp [ctrlReturned]
  | processing e => simp [ctrlStep, ctrlReturned]
  | returned => simp [ctrlReturned] at h

lemma ctrlStep_iter_not_returned {E : Type} (source : Nat → Option E) (n : Nat) :
    ctrlReturned ((ctrlStep source)^[n] (procInit E)).ctrl = false := by
  induction n with
  | zero => rfl
  | succ n ih =>
      rw [Function.iterate_succ_apply']
      exact ctrlStep_not_returned source _ ih

/-- `InputDevice::send_event`: hand one event to the downstream sink.  The
sink preserves arrival order, so the hand-off appends to the observed
sequence. -/
def send_event {E : Type} (sink : List E) (e : E) : List E := sink ++ [e]

/-- A device's `run` body viewed through its `send_event` calls: the events it
emits, in program order, each handed off to the sink in sequence. -/
def runDevice {E : Type} (sink : List E) (emits : List E) : List E :=
  emits.foldl send_event sink

lemma runDevice_eq {E : Type} (sink emits : List E) :
    runDevice sink emits = sink ++ emits := by
  induction emits generalizing sink with
  | nil => simp [runDevice]
  | cons e rest ih =>
      simp only [runDevice, List.foldl_cons] at *
      rw [ih (send_event sink e)]
      simp [send_event]

/-- The types that appear as `Future::Output` in the two trait contracts:
the unit type, the associated `EventType`, the associated `ReportType`, or a
`Result`-like type carrying a failure alternative (which none of them use). -/
inductive HidTy : Type where
  | unit : HidTy
  | eventType : HidTy
  | reportType : HidTy
  | result (ok err : HidTy) : HidTy
deriving DecidableEq, Repr

/-- A type exposes an error when it is a `Result`-like type with a failure
alternative. -/
def exposesError : HidTy → Bool
  | .result _ _ => true
  | _ => false

/-- One operation of a trait contract: its name and the output type of the
future it returns. -/
structure OpSig : Type where
  name : String
  returns : HidTy
deriving DecidableEq, Repr

/-- The operations of the `InputDevice` trait, with their output types as
declared in the source. -/
def inputDeviceOps : List OpSig :=
  [⟨"run", .unit⟩, ⟨"send_event", .unit⟩]

/-- The operations of the `InputProcessor` trait, with their output types as
declared in the source. -/
def inputProcessorOps : List OpSig :=
  [⟨"process", .unit⟩, ⟨"read_event", .eventType⟩,
   ⟨"send_report", .unit⟩, ⟨"run", .unit⟩]

lemma getElem?_append_len {α : Type} (A l : List α) (m : Nat) :
    (A ++ l)[A.length + m]? = l[m]? := by
  rw [List.getElem?_append_right (by omega)]
  congr 1
  omega

/-- C1: for a list of more than one task body, the composition produced by
`run_devices!` is the pairwise join of the first body with the composition of
the rest; a single body composes to itself; and the resulting tree is
right-nested, never balanced. -/
theorem run_devices_is_right_nested_pairwise_join {ι L : Type} (run : ι → L)
    (t1 t2 : ι) (rest : List ι) :
    run_devices run t1 (t2 :: rest) =
        .join (.leaf (run t1)) (run_devices run t2 rest)
    ∧ (∀ t : ι, run_devices run t [] = .leaf (run t))
    ∧ rightNested (run_devices run t1 (t2 :: rest)) = true :=
  ⟨rfl, fun _ => rfl, rightNested_run_devices run t1 (t2 :: rest)⟩

/-- C2: composing a single task yields that task's own `run` body, and the
composed future behaves identically to the task alone: polling it any number
of times produces exactly the task's standalone state, and it completes
exactly when the task does. -/
theorem run_devices_singleton_identity {ι : Type} (run : ι → LeafTask) (t : ι) :
    run_devices run t [] = .leaf (run t)
    ∧ (∀ n : Nat, treePoll^[n] (run_devices run t []) = .leaf (leafPoll^[n] (run t)))
    ∧ (∀ n : Nat,
        treeDone (treePoll^[n] (run_devices run t [])) = leafDone (leafPoll^[n] (run t))) := by
  refine ⟨rfl, fun n => treePoll_iter_leaf (run t) n, fun n => ?_⟩
  rw [show run_devices run t [] = .leaf (run t) from rfl, treePoll_iter_leaf]
  rfl

/-- C3: composing a task that completes after `k` polls with a task that
never completes gives a future that never completes, while the first task
reaches, inside the composition, exactly the state it would reach standalone
after the same number of polls — in particular it is complete after `k`
polls of the composition, the same count as standalone. -/
theorem join_with_nonterminating_task (k : Nat) :
    (∀ n : Nat, treePoll^[n] (run_devices id ⟨some k, 0⟩ [⟨none, 0⟩]) =
        .join (.leaf ⟨some k, min n k⟩) (.leaf ⟨none, n⟩))
    ∧ (∀ n : Nat, treeDone (treePoll^[n] (run_devices id ⟨some k, 0⟩ [⟨none, 0⟩])) = false)
    ∧ (treeLeaves (treePoll^[k] (run_devices id ⟨some k, 0⟩ [⟨none, 0⟩]))).head? =
        some (leafPoll^[k] ⟨some k, 0⟩)
    ∧ leafDone (leafPoll^[k] ⟨some k, 0⟩) = true := by
  have hclosed : ∀ n : Nat, treePoll^[n] (run_devices id ⟨some k, 0⟩ [⟨none, 0⟩]) =
      .join (.leaf ⟨some k, min n k⟩) (.leaf ⟨none, n⟩) := by
    intro n
    rw [show run_devices id (⟨some k, 0⟩ : LeafTask) [⟨none, 0⟩] =
        .join (.leaf ⟨some k, 0⟩) (.leaf ⟨none, 0⟩) from rfl]
    rw [treePoll_iter_join, treePoll_iter_leaf, treePoll_iter_leaf,
      leafPoll_iter_some, leafPoll_iter_none]
    simp
  refine ⟨hclosed, fun n => ?_, ?_, ?_⟩
  · rw [hclosed n]
    simp [treeDone, leafDone]
  · rw [hclosed k, leafPoll_iter_some]
    simp [treeLeaves]
  · rw [leafPoll_iter_some]
    simp [leafDone]

/-- C4: for any composition of between 1 and 8 task bodies, every poll of the
composed future polls every leaf exactly once, and each leaf that has not yet
completed advances its internal progress counter by one at that poll — so no
leaf is starved. -/
theorem run_devices_no_starvation (d : LeafTask) (ds : List LeafTask)
    (_h : (d :: ds).length ≤ 8) :
    treeLeaves (treePoll (run_devices id d ds)) =
        (treeLeaves (run_devices id d ds)).map leafPoll
    ∧ ((treeLeaves (run_devices id d ds)).all
        fun s => leafDone s || decide ((leafPoll s).polls = s.polls + 1)) = true := by
  refine ⟨treeLeaves_treePoll _, ?_⟩
  rw [List.all_eq_true]
  intro s _
  by_cases hs : leafDone s = true
  · simp [hs]
  · simp only [Bool.not_eq_true] at hs
    simp [leafPoll, hs]

/-- C4 witness: the no-starvation theorem instantiated with two
never-terminating leaves. -/
theorem run_devices_no_starvation_witness :
    treeLeaves (treePoll (run_devices id ⟨none, 0⟩ [⟨none, 0⟩])) =
        (treeLeaves (run_devices id ⟨none, 0⟩ [⟨none, 0⟩])).map leafPoll
    ∧ ((treeLeaves (run_devices id ⟨none, 0⟩ [⟨none, 0⟩])).all
        fun s => leafDone s || decide ((leafPoll s).polls = s.polls + 1)) = true :=
  run_devices_no_starvation ⟨none, 0⟩ [⟨none, 0⟩] (by decide)

/-- C5: when every `read_event` resolves, after `n` full iterations of the
default `run` loop the trace of `process` calls is exactly the first `n`
events delivered by `read_event`, in delivery order — one `process` call per
event, never reordered, duplicated, or dropped; in particular three events
are processed as `[e1, e2, e3]`. -/
theorem processor_run_processes_in_order {E : Type} (f : Nat → E) (n : Nat) :
    (ctrlStep (fun i => some (f i)))^[2 * n] (procInit E) =
        ⟨.read, n, (List.range n).map f⟩
    ∧ ((ctrlStep (fun i => some (f i)))^[6] (procInit E)).processed =
        [f 0, f 1, f 2] := by
  refine ⟨ctrlStep_closed f n, ?_⟩
  rw [show (6 : Nat) = 2 * 3 from rfl, ctrlStep_closed f 3]
  simp [List.range_succ]

/-- C6: the default `run` loop never returns, whatever `read_event` does: no
number of steps reaches the returned control state; when every `read_event`
resolves the loop keeps iterating forever (`n` events read after `n`
iterations); and when `read_event` never resolves again the future merely
stays suspended at `read_event`, unchanged. -/
theorem processor_run_never_completes {E : Type} (source : Nat → Option E)
    (f : Nat → E) (n r : Nat) (p : List E) :
    ctrlReturned ((ctrlStep source)^[n] (procInit E)).ctrl = false
    ∧ ((ctrlStep (fun i => some (f i)))^[2 * n] (procInit E)).readCount = n
    ∧ ctrlStep (fun _ => none) (⟨.read, r, p⟩ : ProcRun E) = ⟨.read, r, p⟩ := by
  refine ⟨ctrlStep_iter_not_returned source n, ?_, ?_⟩
  · rw [ctrlStep_closed f n]
  · rfl

/-- C7: a device whose `run` body emits `e1` and later `e2` through
sequential `send_event` calls leaves the sink with `e1` at a strictly smaller
position than `e2`, so any downstream consumer reading the sink in order
observes `e1` strictly before `e2`. -/
theorem send_event_fifo_per_device {E : Type} (sink xs ys zs : List E) (e1 e2 : E) :
    (runDevice sink (xs ++ e1 :: (ys ++ e2 :: zs)))[sink.length + xs.length]? = some e1
    ∧ (runDevice sink (xs ++ e1 :: (ys ++ e2 :: zs)))[sink.length + xs.length + 1 + ys.length]?
        = some e2
    ∧ sink.length + xs.length < sink.length + xs.length + 1 + ys.length := by
  rw [runDevice_eq]
  have hassoc : sink ++ (xs ++ e1 :: (ys ++ e2 :: zs)) =
      (sink ++ xs) ++ e1 :: (ys ++ e2 :: zs) := by
    simp [List.append_assoc]
  rw [hassoc]
  have hlen : sink.length + xs.length = (sink ++ xs).length := by
    simp
  refine ⟨?_, ?_, by omega⟩
  · rw [hlen, show (sink ++ xs).length = (sink ++ xs).length + 0 from rfl,
      getElem?_append_len]
    simp
  · rw [show sink.length + xs.length + 1 + ys.length =
      (sink ++ xs).length + (ys.length + 1) by simp; omega, getElem?_append_len]
    rw [List.getElem?_cons_succ, show ys.length = ys.length + 0 from rfl,
      getElem?_append_len]
    simp

/-- C8: no operation of the two trait contracts exposes an error type: every
operation's future output is error-free, with `run`, `send_event`, `process`
and `send_report` returning unit and `read_event` returning only the event
type. -/
theorem contracts_expose_no_error_type :
    ((inputDeviceOps ++ inputProcessorOps).all
        fun op => !exposesError op.returns) = true
    ∧ inputDeviceOps.map OpSig.returns = [.unit, .unit]
    ∧ inputProcessorOps.map OpSig.returns = [.unit, .eventType, .unit, .unit] := by
  refine ⟨by decide, rfl, rfl⟩

/-- C9: the `run_processors!` macro expands to exactly the same right-nested
join structure as `run_devices!` over the same run bodies. -/
theorem run_processors_same_as_run_devices {ι L : Type} (run : ι → L)
    (d : ι) (ds : List ι) :
    run_processors run d ds = run_devices run d ds :=
  run_processors_eq_run_devices run d ds

/-- C10: both composition macros invoke `run` exactly once on each listed
instance, in left-to-right argument order, and place nothing else in the
composed future: its leaves are exactly the `run` bodies of the listed
instances, in order. -/
theorem run_devices_runs_each_instance_once {ι L : Type} (run : ι → L)
    (d : ι) (ds : List ι) :
    treeLeaves (run_devices run d ds) = (d :: ds).map run
    ∧ treeLeaves (run_processors run d ds) = (d :: ds).map run := by
  refine ⟨treeLeaves_run_devices run d ds, ?_⟩
  rw [run_processors_eq_run_devices]
  exact treeLeaves_run_devices run d ds

end RMK
